import Mathlib

/-!
# Verification of the J Read client (src/App.tsx, src/data.ts)

Shallow embedding of the client-side logic of the J Read serial-fiction
platform: the role-change permission predicate, the reader font-size control,
chapter numbering, search matching, the home-page filter/sort pipeline, the
optimistic like/bookmark/rating handlers, and the chapter editor's debounced
auto-save state machine.  Each definition is translated from the TypeScript
source; theorems below settle the specification's claims against them.
-/

set_option maxHeartbeats 1000000

/-! ## Data model -/

/-- The `UserRole` enum (src/App.tsx types, later variant: USER/AUTHOR/ADMIN/OWNER). -/
inductive UserRole
  | USER
  | AUTHOR
  | ADMIN
  | OWNER
deriving DecidableEq, Repr

/-- The fields of a `User` profile relevant to role management. -/
structure User where
  id : String
  role : UserRole
deriving DecidableEq, Repr

/-- The fields of a `Novel` used by the home page and search
(src/App.tsx `Novel` interface).  `createdAt` is the epoch-millisecond value of
`new Date(n.createdAt).getTime()`; `rating` is the stored average, scaled to an
integer; `views` is the view counter. -/
structure Novel where
  id : Nat
  title : String
  authorName : String
  genre : String
  tags : List String
  rating : Int
  views : Int
  createdAt : Int
deriving DecidableEq, Repr

/-- A chapter record as the editors see it (id + positional number). -/
structure ChapterRec where
  id : Nat
  chapterNumber : Nat
deriving DecidableEq, Repr

/-! ## C5: role-change permission (src/App.tsx `canChangeRole`, lines 3654-3670) -/

/-- Function `canChangeRole` from `AdminPanelPage`:
no current user -> false; own row -> false; OWNER -> true;
ADMIN -> false on OWNER/ADMIN targets, true otherwise; anyone else -> false. -/
def canChangeRole (currentUser : Option User) (targetUser : User) : Bool :=
  match currentUser with
  | none => false
  | some cu =>
    if cu.id = targetUser.id then false
    else if cu.role = UserRole.OWNER then true
    else if cu.role = UserRole.ADMIN then
      if targetUser.role = UserRole.OWNER ∨ targetUser.role = UserRole.ADMIN then false
      else true
    else false

/-- C5: a role change is permitted iff the actor is an ADMIN and the target a
USER or AUTHOR, or the actor is an OWNER and the target is anyone other than the
actor; and never on the actor's own row. -/
theorem canChangeRole_permission_matrix (cu tu : User) :
    canChangeRole (some cu) tu = true ↔
      (cu.id ≠ tu.id ∧
        ((cu.role = UserRole.ADMIN ∧
            (tu.role = UserRole.USER ∨ tu.role = UserRole.AUTHOR)) ∨
         (cu.role = UserRole.OWNER ∧ cu.id ≠ tu.id))) := by
  by_cases h : cu.id = tu.id
  · simp [canChangeRole, h]
  · cases hcu : cu.role <;> cases htu : tu.role <;>
      simp [canChangeRole, h, hcu, htu]

/-! ## C10: reader font-size control (src/App.tsx `changeFontSize`, lines 598-600) -/

/-- Function `changeFontSize` from `ReaderPage`:
`setFontSize(prev => Math.max(12, Math.min(28, prev + delta)))`. -/
def changeFontSize (delta : Int) (prev : Int) : Int :=
  max 12 (min 28 (prev + delta))

/-- The font size reached after a sequence of A+/A- presses
(`true` = A+, delta +2; `false` = A-, delta -2), starting from
`useState(16)`. -/
def readerFontSize (presses : List Bool) : Int :=
  presses.foldl (fun s b => changeFontSize (if b then 2 else -2) s) 16

lemma changeFontSize_mem_range (delta prev : Int) :
    12 ≤ changeFontSize delta prev ∧ changeFontSize delta prev ≤ 28 := by
  unfold changeFontSize
  omega

lemma readerFontSize_foldl_range (l : List Bool) (s : Int)
    (h1 : 12 ≤ s) (h2 : s ≤ 28) :
    12 ≤ l.foldl (fun s b => changeFontSize (if b then 2 else -2) s) s ∧
      l.foldl (fun s b => changeFontSize (if b then 2 else -2) s) s ≤ 28 := by
  induction l generalizing s with
  | nil => exact ⟨h1, h2⟩
  | cons b bs ih =>
    simp only [List.foldl_cons]
    exact ih _ (changeFontSize_mem_range _ s).1 (changeFontSize_mem_range _ s).2

/-- C10: the reader font size starts at 16 and each press moves it by +-2
clamped into [12, 28]; for every sequence of presses the displayed size stays
within [12, 28]. -/
theorem readerFontSize_bounded (presses : List Bool) :
    12 ≤ readerFontSize presses ∧ readerFontSize presses ≤ 28 := by
  unfold readerFontSize
  exact readerFontSize_foldl_range presses 16 (by norm_num) (by norm_num)

/-! ## C8: chapter numbering on creation
(src/App.tsx lines 1390-1391 `ChapterEditorPage` and 3445-3452
`EditChapterPage`) -/

/-- The value `Math.max(...chapters.map(c => c.chapterNumber))` folded over the list. -/
def maxChapterNumber (chapters : List ChapterRec) : Nat :=
  chapters.foldl (fun m c => max m c.chapterNumber) 0

/-- Variant `EditChapterPage`:
`(novel.chapters.length > 0 ? Math.max(...) : 0) + 1`. -/
def newChapterNumberEdit (chapters : List ChapterRec) : Nat :=
  (if chapters.length > 0 then maxChapterNumber chapters else 0) + 1

/-- Variant `ChapterEditorPage`:
`novel.chapters.length > 0 ? Math.max(...) + 1 : 1`. -/
def newChapterNumberEditor (chapters : List ChapterRec) : Nat :=
  if chapters.length > 0 then maxChapterNumber chapters + 1 else 1

lemma foldl_max_ge_init (l : List Nat) (a : Nat) :
    a ≤ l.foldl (fun m c => max m c) a := by
  induction l generalizing a with
  | nil => simp
  | cons x xs ih => exact le_trans (le_max_left a x) (ih (max a x))

lemma foldl_max_ge_mem (l : List Nat) (a : Nat) (x : Nat) (hx : x ∈ l) :
    x ≤ l.foldl (fun m c => max m c) a := by
  induction l generalizing a with
  | nil => cases hx
  | cons y ys ih =>
    simp only [List.foldl_cons]
    rcases List.mem_cons.mp hx with h | h
    · subst h
      exact le_trans (le_max_right a x) (foldl_max_ge_init ys (max a x))
    · exact ih (max a y) h

lemma foldl_max_mem (l : List Nat) (a : Nat) :
    l.foldl (fun m c => max m c) a ∈ a :: l := by
  induction l generalizing a with
  | nil => simp
  | cons x xs ih =>
    have h := ih (max a x)
    simp only [List.foldl_cons]
    rcases List.mem_cons.mp h with h' | h'
    · rcases max_choice a x with he | he
      · rw [h', he]; exact List.mem_cons_self _ _
      · rw [h', he]; exact List.mem_cons.mpr (Or.inr (List.mem_cons_self _ _))
    · exact List.mem_cons.mpr (Or.inr (List.mem_cons.mpr (Or.inr h')))

lemma maxChapterNumber_spec (chapters : List ChapterRec) (hne : chapters ≠ []) :
    (∀ c ∈ chapters, c.chapterNumber ≤ maxChapterNumber chapters) ∧
      maxChapterNumber chapters ∈ chapters.map (fun c => c.chapterNumber) := by
  constructor
  · intro c hc
    have : c.chapterNumber ∈ chapters.map (fun c => c.chapterNumber) :=
      List.mem_map.mpr ⟨c, hc, rfl⟩
    have := foldl_max_ge_mem (chapters.map (fun c => c.chapterNumber)) 0 _ this
    simpa [maxChapterNumber, List.foldl_map] using this
  · have h := foldl_max_mem (chapters.map (fun c => c.chapterNumber)) 0
    have hfold : maxChapterNumber chapters =
        (chapters.map (fun c => c.chapterNumber)).foldl (fun m c => max m c) 0 := by
      simp [maxChapterNumber, List.foldl_map]
    rcases List.mem_cons.mp h with h' | h'
    · -- the fold equals the initial 0: then the head chapter's number is 0
      cases chapters with
      | nil => exact absurd rfl hne
      | cons c cs =>
        have hc0 : c.chapterNumber ≤ (c :: cs).foldl (fun m x => max m x.chapterNumber) 0 := by
          have := foldl_max_ge_mem ((c :: cs).map (fun x => x.chapterNumber)) 0
            c.chapterNumber (by simp)
          simpa [List.foldl_map] using this
        have hz : maxChapterNumber (c :: cs) = 0 := by
          rw [hfold]; exact h'
        have : c.chapterNumber = 0 := by
          have := hc0
          simp only [maxChapterNumber] at hz
          omega
        rw [hz]
        exact List.mem_map.mpr ⟨c, List.mem_cons_self _ _, this⟩
    · rw [hfold]; exact h'

/-- C8: for every creating save, the new chapter number is
`max existing chapterNumber + 1` (and 1 when the novel has no chapters),
in both editor variants. -/
theorem newChapterNumber_max_plus_one (chapters : List ChapterRec) :
    (chapters = [] →
      newChapterNumberEdit chapters = 1 ∧ newChapterNumberEditor chapters = 1) ∧
    (chapters ≠ [] →
      newChapterNumberEdit chapters = maxChapterNumber chapters + 1 ∧
      newChapterNumberEditor chapters = maxChapterNumber chapters + 1 ∧
      (∀ c ∈ chapters, c.chapterNumber < newChapterNumberEdit chapters) ∧
      maxChapterNumber chapters ∈ chapters.map (fun c => c.chapterNumber)) := by
  constructor
  · intro h
    subst h
    simp [newChapterNumberEdit, newChapterNumberEditor]
  · intro h
    have hlen : 0 < chapters.length := List.length_pos.mpr h
    have hs := maxChapterNumber_spec chapters h
    refine ⟨by simp [newChapterNumberEdit, hlen], by simp [newChapterNumberEditor, hlen], ?_, hs.2⟩
    intro c hc
    have := hs.1 c hc
    simp only [newChapterNumberEdit, if_pos hlen]
    omega

/-- Witness for C8 at a concrete chapter list. -/
theorem newChapterNumber_max_plus_one_witness :
    (⟨0, 3⟩ : ChapterRec) :: [⟨1, 7⟩, ⟨2, 5⟩] ≠ ([] : List ChapterRec) ∧
      newChapterNumberEdit [⟨0, 3⟩, ⟨1, 7⟩, ⟨2, 5⟩] = maxChapterNumber [⟨0, 3⟩, ⟨1, 7⟩, ⟨2, 5⟩] + 1 := by
  refine ⟨by decide, ?_⟩
  exact ((newChapterNumber_max_plus_one [⟨0, 3⟩, ⟨1, 7⟩, ⟨2, 5⟩]).2 (by decide)).1

/-! ## C7: search matching
(src/App.tsx `SearchResultsPage`, lines 3028-3040: case-insensitive substring
over title, author name and tags; empty query yields an empty result list) -/

/-- Pattern `p` occurs at the start of `l` (character-wise). -/
def charsStartWith : List Char → List Char → Bool
  | [], _ => true
  | _ :: _, [] => false
  | a :: as, b :: bs => a == b && charsStartWith as bs

/-- Pattern `p` occurs somewhere inside `l`: the embedding of JavaScript
`String.prototype.includes`. -/
def charsContain (p : List Char) : List Char → Bool
  | [] => charsStartWith p []
  | b :: bs => charsStartWith p (b :: bs) || charsContain p bs

/-- The string `s.toLowerCase()` as a character list (JavaScript lowercasing modelled by
`Char.toLower` on each character; `String.toLower` does the same map). -/
def strLower (s : String) : List Char :=
  s.toList.map Char.toLower

/-- The test `text.includes(pat)` on lowercased strings. -/
def strContainsLower (text pat : String) : Bool :=
  charsContain (strLower pat) (strLower text)

/-- The filter predicate of `SearchResultsPage`:
`novel.title.toLowerCase().includes(q) || novel.authorName.toLowerCase().includes(q)
 || novel.tags.some(tag => tag.toLowerCase().includes(q))`
with `q` the lowercased query. -/
def novelMatchesQuery (query : String) (n : Novel) : Bool :=
  strContainsLower n.title query ||
    strContainsLower n.authorName query ||
    n.tags.any (fun tag => strContainsLower tag query)

/-- The search results list: guarded by `if (!loading && query)`, so an empty
query produces the empty list; otherwise the novels are filtered by
`novelMatchesQuery`. -/
def searchResults (query : String) (novels : List Novel) : List Novel :=
  if query = "" then [] else novels.filter (novelMatchesQuery query)

/-- A sample novel for the search counterexample. -/
def searchSampleNovel : Novel :=
  { id := 1, title := "Ash", authorName := "Bo", genre := "Fantasy",
    tags := ["magic"], rating := 45, views := 10, createdAt := 1000 }

/-- C7 counterexample: for the empty query the lowercased query is a substring
of every title, yet the novel does not appear in the results, so the claimed
iff fails as stated ("for every search query"). -/
theorem searchResults_empty_query_counterexample :
    searchResults "" [searchSampleNovel] = [] ∧
      novelMatchesQuery "" searchSampleNovel = true ∧
      searchSampleNovel ∈ [searchSampleNovel] := by
  refine ⟨by decide, by decide, List.mem_cons_self _ _⟩

/-- C7 amended: for every nonempty query, a novel appears in the search
results iff it is in the input list and the lowercased query is a substring of
its lowercased title, author name, or one of its lowercased tags. -/
theorem searchResults_mem_iff (query : String) (novels : List Novel)
    (n : Novel) (hq : query ≠ "") :
    n ∈ searchResults query novels ↔
      n ∈ novels ∧
        (strContainsLower n.title query = true ∨
         strContainsLower n.authorName query = true ∨
         (∃ tag ∈ n.tags, strContainsLower tag query = true)) := by
  unfold searchResults
  rw [if_neg hq, List.mem_filter]
  unfold novelMatchesQuery
  simp [List.any_eq_true, Bool.or_eq_true, or_assoc]

/-- Witness for C7 at a concrete query and list. -/
theorem searchResults_mem_iff_witness :
    ("as" : String) ≠ "" ∧
      (searchSampleNovel ∈ searchResults "as" [searchSampleNovel] ↔
        searchSampleNovel ∈ [searchSampleNovel] ∧
          (strContainsLower searchSampleNovel.title "as" = true ∨
           strContainsLower searchSampleNovel.authorName "as" = true ∨
           (∃ tag ∈ searchSampleNovel.tags,
             strContainsLower tag "as" = true))) :=
  ⟨by decide, searchResults_mem_iff "as" [searchSampleNovel] searchSampleNovel (by decide)⟩

/-! ## C6: home-page derived list
(src/App.tsx `HomePage`, lines 414-431: copy the novel list, filter by genre
unless "All", then `Array.prototype.sort` with comparator `b.key - a.key`.
ECMAScript `sort` is stable, so it is embedded as a stable descending
insertion sort on the comparator's key.) -/

/-- Sort keys of the home page: `createdAt` ("Latest Releases"),
`rating` ("Top Rated"), `views` ("Popular Novels"). -/
inductive SortKey
  | createdAt
  | rating
  | views
deriving DecidableEq, Repr

/-- The numeric key each comparator reads
(`new Date(b.createdAt).getTime() - new Date(a.createdAt).getTime()`,
`b.rating - a.rating`, `b.views - a.views`). -/
def sortKeyVal : SortKey → Novel → Int
  | SortKey.createdAt, n => n.createdAt
  | SortKey.rating, n => n.rating
  | SortKey.views, n => n.views

/-- Stable insertion of `x` into a descending-by-key list: `x` goes in front of
the first element whose key is not larger, so earlier elements win ties. -/
def insertDescBy (key : Novel → Int) (x : Novel) : List Novel → List Novel
  | [] => [x]
  | y :: ys => if key y ≤ key x then x :: y :: ys else y :: insertDescBy key x ys

/-- Stable descending sort by `key`: the embedding of
`arr.sort((a, b) => key(b) - key(a))`. -/
def sortDescBy (key : Novel → Int) : List Novel → List Novel
  | [] => []
  | x :: xs => insertDescBy key x (sortDescBy key xs)

/-- The genre filter: "All" keeps everything, otherwise exact string match
(`processedNovels.filter(n => n.genre === activeGenre)`). -/
def genreFiltered (g : String) (novels : List Novel) : List Novel :=
  if g = "All" then novels else novels.filter (fun n => n.genre == g)

/-- The displayed home-page list: filter by genre, then stable-sort descending
by the selected key. -/
def homeDisplayNovels (novels : List Novel) (g : String) (k : SortKey) : List Novel :=
  sortDescBy (sortKeyVal k) (genreFiltered g novels)

lemma insertDescBy_perm (key : Novel → Int) (x : Novel) (l : List Novel) :
    List.Perm (insertDescBy key x l) (x :: l) := by
  induction l with
  | nil => exact List.Perm.refl _
  | cons y ys ih =>
    unfold insertDescBy
    by_cases h : key y ≤ key x
    · rw [if_pos h]
    · rw [if_neg h]
      exact List.Perm.trans (List.Perm.cons y ih) (List.Perm.swap x y ys)

lemma sortDescBy_perm (key : Novel → Int) (l : List Novel) :
    List.Perm (sortDescBy key l) l := by
  induction l with
  | nil => exact List.Perm.refl _
  | cons x xs ih =>
    exact List.Perm.trans (insertDescBy_perm key x (sortDescBy key xs))
      (List.Perm.cons x ih)

lemma insertDescBy_pairwise (key : Novel → Int) (x : Novel) (l : List Novel)
    (h : l.Pairwise (fun a b => key b ≤ key a)) :
    (insertDescBy key x l).Pairwise (fun a b => key b ≤ key a) := by
  induction l with
  | nil => simp [insertDescBy]
  | cons y ys ih =>
    unfold insertDescBy
    rcases List.pairwise_cons.mp h with ⟨hy, hys⟩
    by_cases hxy : key y ≤ key x
    · rw [if_pos hxy]
      refine List.pairwise_cons.mpr ⟨?_, h⟩
      intro b hb
      rcases List.mem_cons.mp hb with hb | hb
      · exact hb ▸ hxy
      · exact le_trans (hy b hb) hxy
    · rw [if_neg hxy]
      refine List.pairwise_cons.mpr ⟨?_, ih hys⟩
      intro b hb
      have hb' := (insertDescBy_perm key x ys).mem_iff.mp hb
      rcases List.mem_cons.mp hb' with hb' | hb'
      · exact hb' ▸ le_of_lt (lt_of_not_le hxy)
      · exact hy b hb'

lemma sortDescBy_pairwise (key : Novel → Int) (l : List Novel) :
    (sortDescBy key l).Pairwise (fun a b => key b ≤ key a) := by
  induction l with
  | nil => simp [sortDescBy]
  | cons x xs ih => exact insertDescBy_pairwise key x (sortDescBy key xs) ih

lemma insertDescBy_filter_not (key : Novel → Int) (x : Novel) (l : List Novel)
    (p : Novel → Bool) (hx : p x = false) :
    (insertDescBy key x l).filter p = l.filter p := by
  induction l with
  | nil => simp [insertDescBy, List.filter, hx]
  | cons y ys ih =>
    unfold insertDescBy
    by_cases h : key y ≤ key x
    · rw [if_pos h]
      simp [List.filter, hx]
    · rw [if_neg h]
      cases hy : p y <;> simp [List.filter, hy, ih]

lemma insertDescBy_filter_yes (key : Novel → Int) (x : Novel) (l : List Novel)
    (p : Novel → Bool) (hx : p x = true)
    (hgt : ∀ y, key x < key y → p y = false) :
    (insertDescBy key x l).filter p = x :: l.filter p := by
  induction l with
  | nil => simp [insertDescBy, List.filter, hx]
  | cons y ys ih =>
    unfold insertDescBy
    by_cases h : key y ≤ key x
    · rw [if_pos h]
      simp [List.filter, hx]
    · rw [if_neg h]
      have hy : p y = false := hgt y (lt_of_not_le h)
      simp [List.filter, hy, ih]

lemma sortDescBy_stable (key : Novel → Int) (l : List Novel) (v : Int) :
    (sortDescBy key l).filter (fun n => key n == v) =
      l.filter (fun n => key n == v) := by
  induction l with
  | nil => rfl
  | cons x xs ih =>
    unfold sortDescBy
    cases hx : (key x == v) with
    | true =>
      have hxv : key x = v := by
        simpa using hx
      rw [insertDescBy_filter_yes key x (sortDescBy key xs) _ hx]
      · simp [List.filter, hx, ih]
      · intro y hy
        have : key y ≠ v := by omega
        simpa using this
    | false =>
      rw [insertDescBy_filter_not key x (sortDescBy key xs) _ hx]
      simp [List.filter, hx, ih]

/-- C6: for every novel list, genre filter g ("All" = no filter, otherwise
exact genre equality) and sort key k in {latest, rating, views}, the displayed
list is the genre-filtered list stably sorted descending by k: it is a
permutation of the filtered list, it is pairwise descending on the key, and
elements with equal keys keep their original fetch order (equal filters). -/
theorem homeDisplayNovels_filter_sort_stable (novels : List Novel) (g : String)
    (k : SortKey) :
    List.Perm (homeDisplayNovels novels g k) (genreFiltered g novels) ∧
      (homeDisplayNovels novels g k).Pairwise
        (fun a b => sortKeyVal k b ≤ sortKeyVal k a) ∧
      ∀ v : Int,
        (homeDisplayNovels novels g k).filter (fun n => sortKeyVal k n == v) =
          (genreFiltered g novels).filter (fun n => sortKeyVal k n == v) :=
  ⟨sortDescBy_perm _ _, sortDescBy_pairwise _ _, fun v => sortDescBy_stable _ _ v⟩

/-! ## C4: optimistic toggles
(src/App.tsx `NovelDetailPage`: `handleToggleBookmark` lines 2403-2414,
`handleLikeToggle` lines 2416-2432, `handleRatingSubmit` lines 2434-2451.
The API layer (`likeNovel`, `unlikeNovel`, `addBookmark`, `removeBookmark`,
`submitRating`) never throws: it returns `{ success: boolean }`.  Each handler
is embedded as a function of the remote outcome, returning the new local view
state together with the number of remote mutation requests it issued.) -/

/-- The local view state of `NovelDetailPage` touched by the three handlers. -/
structure DetailState where
  hasLiked : Bool
  likes : Int
  isBookmarked : Bool
  userRating : Option Nat
  novelRating : Int
deriving DecidableEq, Repr

/-- Handler `handleToggleBookmark`: flips `isBookmarked`, awaits
`addBookmark`/`removeBookmark` and ignores the returned `{ success }`. -/
def handleToggleBookmark (_remoteOk : Bool) (s : DetailState) : DetailState × Nat :=
  ({ s with isBookmarked := !s.isBookmarked }, 1)

/-- Handler `handleLikeToggle`: flips `hasLiked`, adjusts the like count by +-1, awaits
`likeNovel`/`unlikeNovel` and ignores the returned `{ success }`. -/
def handleLikeToggle (_remoteOk : Bool) (s : DetailState) : DetailState × Nat :=
  let newLiked := !s.hasLiked
  ({ s with
      hasLiked := newLiked,
      likes := s.likes + (if newLiked then 1 else -1) }, 1)

/-- Handler `handleRatingSubmit`: snapshots the old rating, optimistically sets the new
one, and on `success: false` restores the snapshot (net effect: unchanged); on
success it keeps the new rating and refetches the novel's average. -/
def handleRatingSubmit (remoteOk : Bool) (serverAvg : Int) (rating : Nat)
    (s : DetailState) : DetailState × Nat :=
  if remoteOk then
    ({ s with userRating := some rating, novelRating := serverAvg }, 1)
  else
    (s, 1)

/-- A concrete pre-interaction view state. -/
def detailSampleState : DetailState :=
  { hasLiked := false, likes := 10, isBookmarked := false,
    userRating := none, novelRating := 40 }

/-- C4 counterexample: when the remote call fails, the like handler leaves the
flipped value and bumped count in place, and the bookmark handler leaves the
flipped flag in place — no rollback to the pre-flip snapshot. -/
theorem optimisticToggle_no_rollback_counterexample :
    (handleLikeToggle false detailSampleState).1.hasLiked = true ∧
      detailSampleState.hasLiked = false ∧
      (handleLikeToggle false detailSampleState).1.likes = 11 ∧
      detailSampleState.likes = 10 ∧
      (handleToggleBookmark false detailSampleState).1.isBookmarked = true ∧
      detailSampleState.isBookmarked = false := by
  decide

/-- C4 amended: only the rating handler rolls back — on failure it returns the
state unchanged, with exactly one mutation request and no retry.  The like and
bookmark handlers ignore the remote outcome entirely (failure leaves the
flipped value in place), and each of the three issues exactly one remote
mutation request per invocation, never scheduling a retry. -/
theorem optimisticToggle_rollback_amended (s : DetailState) (serverAvg : Int)
    (rating : Nat) :
    (handleRatingSubmit false serverAvg rating s).1 = s ∧
      (handleRatingSubmit false serverAvg rating s).2 = 1 ∧
      (handleRatingSubmit true serverAvg rating s).2 = 1 ∧
      (∀ remoteOk, handleLikeToggle remoteOk s = handleLikeToggle false s ∧
        (handleLikeToggle remoteOk s).2 = 1) ∧
      (∀ remoteOk,
        handleToggleBookmark remoteOk s = handleToggleBookmark false s ∧
        (handleToggleBookmark remoteOk s).2 = 1) := by
  refine ⟨by simp [handleRatingSubmit], by simp [handleRatingSubmit],
    by simp [handleRatingSubmit], fun remoteOk => ⟨rfl, rfl⟩,
    fun remoteOk => ⟨rfl, rfl⟩⟩

/-! ## The chapter editor auto-save machine
(src/App.tsx `EditChapterPage`, lines 3379-3561)

The editor is embedded as a labelled transition system over an explicit state.
Per the spec's concurrency model, execution is single-threaded and
event-driven: UI events and timer callbacks interleave, and network calls
suspend at `await` points while the UI stays responsive, so a save request can
resolve at an arbitrary later time.

State fields mirror the React state and refs:
`status` is `saveStatus`; `timer` the pending debounce deadline held in
`autoSaveTimeoutRef` (every re-render whose effect runs clears it, and the
effect only re-arms it when `saveStatus === 'dirty'` and not loading);
`retryAt` the deadlines of the stray `setTimeout(() => setSaveStatus('dirty'), 2000)`
scheduled by the failure branch; `chapterId` is `chapterIdFromParams`
(updated synchronously by `navigate(..., { replace: true })` after a create
succeeds); `reload` the `isLoading` phase of the `loadData` effect the
navigation re-triggers; `inflight` the unresolved save requests; `issued` the
log of all requests ever issued (most recent first); `createdIds` the chapter
records created server-side; `serverTitle`/`serverContent` the stored copy the
reload reads back; `nextId` a fresh-id counter for server-assigned ids.

Events: an edit keystroke (delivering the new title and content, which sets
`saveStatus` to `'dirty'` and re-arms the debounce timer 2000ms out), the
debounce timer firing (issues the write: `updateChapter` when a chapter id is
known, `addChapter` otherwise), a stray retry timeout firing, a request
resolving with success or failure, and the post-navigation reload completing.

Timing guards keep traces causal: every event carries its absolute time, and an
event may not occur once a pending deadline has passed (the deadline's callback
fires first).  Edits are guarded strictly before deadlines; resolutions may
race a deadline at the same instant.  A debounce timer may not fire while an
earlier-or-equal stray retry deadline is pending (the stray was scheduled
first, and JavaScript fires equal deadlines in scheduling order). -/

/-- The `saveStatus` values of `EditChapterPage`. -/
inductive SaveStatus
  | idle
  | dirty
  | saving
  | saved
  | error
deriving DecidableEq, Repr

/-- One save request: when it was issued, its target (`some id` for
`updateChapter`, `none` for `addChapter`), the server id a create will be
assigned, and the payload captured at issue time. -/
structure SaveReq where
  issuedAt : Nat
  target : Option Nat
  newId : Nat
  pTitle : String
  pContent : String
deriving DecidableEq, Repr

/-- The editor state. -/
structure EdState where
  now : Nat
  status : SaveStatus
  timer : Option Nat
  retryAt : List Nat
  chapterId : Option Nat
  title : String
  content : String
  inflight : List SaveReq
  issued : List SaveReq
  createdIds : List Nat
  serverTitle : String
  serverContent : String
  reload : Bool
  nextId : Nat
deriving DecidableEq, Repr

/-- Events, each stamped with its absolute time in milliseconds. -/
inductive Ev
  | edit (t : Nat) (ti co : String)
  | fire (t : Nat)
  | retryFire (t : Nat)
  | resolveOk (t : Nat) (i : Nat)
  | resolveErr (t : Nat) (i : Nat)
  | reloadDone (t : Nat)
deriving DecidableEq, Repr

/-- The time stamp of an event. -/
def Ev.time : Ev → Nat
  | Ev.edit t _ _ => t
  | Ev.fire t => t
  | Ev.retryFire t => t
  | Ev.resolveOk t _ => t
  | Ev.resolveErr t _ => t
  | Ev.reloadDone t => t

/-- Is the event a user edit? -/
def Ev.isEdit : Ev → Bool
  | Ev.edit _ _ _ => true
  | _ => false

/-- Is the event a failed resolution? -/
def Ev.isErr : Ev → Bool
  | Ev.resolveErr _ _ => true
  | _ => false

/-- Time `t` lies strictly before the pending debounce deadline (if any). -/
def beforeTimer (s : EdState) (t : Nat) : Bool :=
  match s.timer with
  | none => true
  | some d => decide (t < d)

/-- Time `t` lies at or before the pending debounce deadline (if any). -/
def atMostTimer (s : EdState) (t : Nat) : Bool :=
  match s.timer with
  | none => true
  | some d => decide (t ≤ d)

/-- Time `t` lies strictly before every pending stray retry deadline. -/
def beforeRetries (s : EdState) (t : Nat) : Bool :=
  s.retryAt.all (fun r => decide (t < r))

/-- Time `t` lies at or before every pending stray retry deadline. -/
def atMostRetries (s : EdState) (t : Nat) : Bool :=
  s.retryAt.all (fun r => decide (t ≤ r))

/-- The request the debounce callback issues at time `t`: `updateChapter` on
the known chapter id, else `addChapter` with `title || "Untitled Draft"`. -/
def mkReq (s : EdState) (t : Nat) : SaveReq :=
  { issuedAt := t
    target := s.chapterId
    newId := s.nextId
    pTitle := if s.chapterId.isNone && s.title == "" then "Untitled Draft" else s.title
    pContent := s.content }

/-- One transition of the editor; `none` when the event cannot occur in `s`. -/
def step (s : EdState) : Ev → Option EdState
  | Ev.edit t ti co =>
    -- `handleTitleChange`/`handleContentChange`: set status dirty, set the
    -- field; the auto-save effect re-runs, clears the old timer and (not
    -- loading, status dirty) arms a fresh 2000ms one.  The inputs are not
    -- rendered while `isLoading`, and an edit cannot postdate a pending
    -- deadline.
    if s.now ≤ t && !s.reload && beforeTimer s t && beforeRetries s t then
      some { s with now := t, status := SaveStatus.dirty, title := ti,
                    content := co, timer := some (t + 2000) }
    else none
  | Ev.fire t =>
    -- the debounce callback: status 'saving', issue the write.  A pending
    -- stray retry with an earlier-or-equal deadline fires first.
    if s.timer == some t && s.now ≤ t && beforeRetries s t then
      some { s with now := t, status := SaveStatus.saving, timer := none,
                    inflight := mkReq s t :: s.inflight,
                    issued := mkReq s t :: s.issued,
                    nextId := s.nextId + 1 }
    else none
  | Ev.retryFire t =>
    -- the stray `setSaveStatus('dirty')` timeout from a past failure.  If the
    -- status is already 'dirty' React bails out and the pending debounce
    -- timer survives; otherwise the effect re-runs: old timer cleared, new
    -- one armed unless the editor is loading.
    if s.retryAt.contains t && s.now ≤ t && atMostTimer s t && atMostRetries s t then
      if s.status == SaveStatus.dirty then
        some { s with now := t, retryAt := s.retryAt.erase t }
      else
        some { s with now := t, retryAt := s.retryAt.erase t,
                      status := SaveStatus.dirty,
                      timer := if s.reload then none else some (t + 2000) }
    else none
  | Ev.resolveOk t i =>
    -- the `await` resumes with success: status 'saved' (the re-render's
    -- cleanup clears any pending debounce timer).  A create additionally
    -- navigates to the new id, which updates `chapterIdFromParams` and
    -- re-triggers the loadData effect.
    match s.inflight[i]? with
    | none => none
    | some req =>
      if s.now ≤ t && atMostTimer s t && atMostRetries s t then
        match req.target with
        | some _ =>
          some { s with now := t, status := SaveStatus.saved, timer := none,
                        inflight := s.inflight.eraseIdx i,
                        serverTitle := req.pTitle, serverContent := req.pContent }
        | none =>
          some { s with now := t, status := SaveStatus.saved, timer := none,
                        inflight := s.inflight.eraseIdx i,
                        chapterId := some req.newId,
                        createdIds := req.newId :: s.createdIds,
                        serverTitle := req.pTitle, serverContent := req.pContent,
                        reload := true }
      else none
  | Ev.resolveErr t i =>
    -- the `await` resumes with failure: status 'error' (timer cleared by the
    -- re-render) and `setTimeout(() => setSaveStatus('dirty'), 2000)`.
    match s.inflight[i]? with
    | none => none
    | some _ =>
      if s.now ≤ t && atMostTimer s t && atMostRetries s t then
        some { s with now := t, status := SaveStatus.error, timer := none,
                      inflight := s.inflight.eraseIdx i,
                      retryAt := (t + 2000) :: s.retryAt }
      else none
  | Ev.reloadDone t =>
    -- `loadData` finishes after the post-create navigation: title/content are
    -- read back from the stored record and `saveStatus` is set to 'idle'.
    if s.reload && s.now ≤ t && atMostTimer s t && atMostRetries s t then
      some { s with now := t, status := SaveStatus.idle, timer := none,
                    reload := false, title := s.serverTitle,
                    content := s.serverContent }
    else none

/-- Run a list of events from a state. -/
def run (s : EdState) : List Ev → Option EdState
  | [] => some s
  | e :: tr =>
    match step s e with
    | none => none
    | some s1 => run s1 tr

/-- The editor state right after `loadData` completes: `chapterIdFromParams`
is `some id` when editing an existing chapter and `none` in the new-chapter
flow, title/content hold the loaded values, `saveStatus` is 'idle'. -/
def editorInit (cid : Option Nat) (ti co : String) : EdState :=
  { now := 0, status := SaveStatus.idle, timer := none, retryAt := [],
    chapterId := cid, title := ti, content := co, inflight := [], issued := [],
    createdIds := [], serverTitle := ti, serverContent := co, reload := false,
    nextId := 0 }

/-! ## C1 counterexample and C9 -/

/-- C1 counterexample trace: edit, debounce fires (write no. 1 issued), edit
again while the write is still in flight (status leaves 'saving' for 'dirty'),
the restarted debounce fires 2000ms later — a second write is issued while the
first is still unresolved. -/
def c1Trace : List Ev :=
  [Ev.edit 0 "a" "x", Ev.fire 2000, Ev.edit 2500 "a" "xy", Ev.fire 4500]

/-- C1 counterexample: after the trace above, two save requests are
simultaneously in flight — the second write was issued before the in-flight
one resolved, contradicting the claimed single-in-flight guarantee. -/
theorem editor_two_writes_in_flight_counterexample :
    (run (editorInit (some 7) "t0" "c0") c1Trace).map
        (fun s => (s.inflight.length, s.issued.length)) = some (2, 2) := by
  rfl

/-- C9: failed-save frame property.  A failure resolution changes the save
status (and failure bookkeeping) only: the in-memory title and content — the
user's unsaved keystrokes — and the chapter identity and issue/creation logs
are untouched. -/
theorem resolveErr_keeps_title_content (s : EdState) (t i : Nat) (s' : EdState)
    (h : step s (Ev.resolveErr t i) = some s') :
    s'.title = s.title ∧ s'.content = s.content ∧
      s'.status = SaveStatus.error ∧ s'.chapterId = s.chapterId ∧
      s'.issued = s.issued ∧ s'.createdIds = s.createdIds := by
  simp only [step] at h
  cases hq : s.inflight[i]? with
  | none => rw [hq] at h; exact absurd h (by simp)
  | some req =>
    rw [hq] at h
    by_cases hg : (s.now ≤ t && atMostTimer s t && atMostRetries s t) = true
    · rw [if_pos hg] at h
      cases h
      exact ⟨rfl, rfl, rfl, rfl, rfl, rfl⟩
    · rw [if_neg hg] at h
      exact absurd h (by simp)

/-- A concrete state with one in-flight save, for the C9 witness. -/
def c9State : EdState :=
  { now := 2000, status := SaveStatus.saving, timer := none, retryAt := [],
    chapterId := some 7, title := "a", content := "x",
    inflight := [{ issuedAt := 2000, target := some 7, newId := 0,
                   pTitle := "a", pContent := "x" }],
    issued := [{ issuedAt := 2000, target := some 7, newId := 0,
                 pTitle := "a", pContent := "x" }],
    createdIds := [], serverTitle := "t", serverContent := "c",
    reload := false, nextId := 1 }

/-- The state after the in-flight save of `c9State` fails at time 2300. -/
def c9StateAfter : EdState :=
  { now := 2300, status := SaveStatus.error, timer := none, retryAt := [4300],
    chapterId := some 7, title := "a", content := "x",
    inflight := [],
    issued := [{ issuedAt := 2000, target := some 7, newId := 0,
                 pTitle := "a", pContent := "x" }],
    createdIds := [], serverTitle := "t", serverContent := "c",
    reload := false, nextId := 1 }

/-- Witness for C9 at a concrete failing save. -/
theorem resolveErr_keeps_title_content_witness :
    c9StateAfter.title = c9State.title ∧ c9StateAfter.content = c9State.content ∧
      c9StateAfter.status = SaveStatus.error ∧
      c9StateAfter.chapterId = c9State.chapterId ∧
      c9StateAfter.issued = c9State.issued ∧
      c9StateAfter.createdIds = c9State.createdIds :=
  resolveErr_keeps_title_content c9State 2300 0 c9StateAfter (by decide)

/-! ## C3 counterexample -/

/-- C3 counterexample trace: a new-chapter session in which the user edits
while the initial create is still in flight; the restarted debounce fires with
`chapterIdFromParams` still unset, so `addChapter` is called a second time and
both creates succeed. -/
def c3Trace : List Ev :=
  [Ev.edit 0 "a" "x", Ev.fire 2000, Ev.edit 2500 "a" "xy", Ev.fire 4500,
   Ev.resolveOk 5000 0, Ev.resolveOk 5100 0]

/-- C3 counterexample: one new-chapter editing session creates two chapter
records — both issued requests were creates (`target = none`), and two
server-side records exist afterwards. -/
theorem editor_duplicate_create_counterexample :
    (run (editorInit none "" "") c3Trace).map
        (fun s => (s.createdIds.length, s.issued.all (fun r => r.target.isNone))) =
      some (2, true) := by
  rfl

/-! ## C1 amended: single in-flight save under edit discipline -/

lemma beforeTimer_iff (s : EdState) (t : Nat) :
    beforeTimer s t = true ↔ ∀ d, s.timer = some d → t < d := by
  cases h : s.timer <;> simp [beforeTimer, h]

lemma atMostTimer_iff (s : EdState) (t : Nat) :
    atMostTimer s t = true ↔ ∀ d, s.timer = some d → t ≤ d := by
  cases h : s.timer <;> simp [atMostTimer, h]

lemma beforeRetries_iff (s : EdState) (t : Nat) :
    beforeRetries s t = true ↔ ∀ r ∈ s.retryAt, t < r := by
  simp [beforeRetries, List.all_eq_true]

lemma atMostRetries_iff (s : EdState) (t : Nat) :
    atMostRetries s t = true ↔ ∀ r ∈ s.retryAt, t ≤ r := by
  simp [atMostRetries, List.all_eq_true]

/-- The inductive invariant behind the single-in-flight property: at most one
unresolved request; a pending debounce timer or stray retry implies nothing is
in flight; stray retries expire within 2000ms of now; and stray deadlines never
exceed a pending debounce deadline. -/
def EdInv (s : EdState) : Prop :=
  s.inflight.length ≤ 1 ∧
    (s.timer ≠ none → s.inflight = []) ∧
    (s.retryAt ≠ [] → s.inflight = []) ∧
    (∀ r ∈ s.retryAt, r ≤ s.now + 2000) ∧
    (∀ d, s.timer = some d → ∀ r ∈ s.retryAt, r ≤ d)

lemma getElem?_singleton (l : List SaveReq) (i : Nat) (req : SaveReq)
    (h : l[i]? = some req) (hl : l.length ≤ 1) : l = [req] ∧ i = 0 := by
  have hi : i < l.length := by
    by_contra hc
    push_neg at hc
    rw [List.getElem?_eq_none hc] at h
    cases h
  cases l with
  | nil => simp at hi
  | cons x xs =>
    have hxs : xs = [] := by
      cases xs with
      | nil => rfl
      | cons y ys => simp at hl
    subst hxs
    have hi0 : i = 0 := by
      simp at hi
      omega
    subst hi0
    simp at h
    exact ⟨by rw [h], rfl⟩

lemma EdInv_step (s : EdState) (e : Ev) (s' : EdState) (hi : EdInv s)
    (hsafe : e.isEdit = true → s.inflight = []) (h : step s e = some s') :
    EdInv s' := by
  obtain ⟨h1, h2, h3, h4, h5⟩ := hi
  cases e with
  | edit t ti co =>
    have hinf : s.inflight = [] := hsafe rfl
    simp only [step] at h
    by_cases hg : (decide (s.now ≤ t) && !s.reload && beforeTimer s t &&
        beforeRetries s t) = true
    · rw [if_pos hg] at h
      simp only [Bool.and_eq_true, decide_eq_true_eq] at hg
      have hnow : s.now ≤ t := hg.1.1.1
      cases h
      refine ⟨by simp [hinf], by simp [hinf], by simp [hinf], ?_, ?_⟩
      · intro r hr
        have := h4 r hr
        show r ≤ t + 2000
        omega
      · intro d hd r hr
        have := h4 r hr
        have hd' : some (t + 2000) = some d := hd
        simp only [Option.some.injEq] at hd'
        omega
    · rw [if_neg hg] at h
      cases h
  | fire t =>
    simp only [step] at h
    by_cases hg : (s.timer == some t && decide (s.now ≤ t) &&
        beforeRetries s t) = true
    · rw [if_pos hg] at h
      simp only [Bool.and_eq_true, beq_iff_eq, decide_eq_true_eq] at hg
      have htimer : s.timer = some t := hg.1.1
      have hret : ∀ r ∈ s.retryAt, t < r := (beforeRetries_iff s t).mp hg.2
      have hinf : s.inflight = [] := h2 (by rw [htimer]; exact Option.some_ne_none t)
      have hretry : s.retryAt = [] := by
        cases hx : s.retryAt with
        | nil => rfl
        | cons r rs =>
          have hle := h5 t htimer r (by rw [hx]; exact List.mem_cons_self _ _)
          have hlt := hret r (by rw [hx]; exact List.mem_cons_self _ _)
          omega
      cases h
      refine ⟨by simp [hinf], by simp, by simp [hretry], by simp [hretry], by simp⟩
    · rw [if_neg hg] at h
      cases h
  | retryFire t =>
    simp only [step] at h
    by_cases hg : (s.retryAt.contains t && decide (s.now ≤ t) && atMostTimer s t &&
        atMostRetries s t) = true
    · rw [if_pos hg] at h
      simp only [Bool.and_eq_true, decide_eq_true_eq] at hg
      have hmem : t ∈ s.retryAt := by
        have := hg.1.1.1
        simpa using this
      have hnow : s.now ≤ t := hg.1.1.2
      have hinf : s.inflight = [] := h3 (by
        intro hx
        rw [hx] at hmem
        cases hmem)
      have herase : ∀ r ∈ s.retryAt.erase t, r ∈ s.retryAt :=
        fun r hr => List.mem_of_mem_erase hr
      by_cases hst : (s.status == SaveStatus.dirty) = true
      · rw [if_pos hst] at h
        cases h
        refine ⟨by simp [hinf], by simpa using h2, by simp [hinf], ?_, ?_⟩
        · intro r hr
          have := h4 r (herase r hr)
          show r ≤ t + 2000
          omega
        · intro d hd r hr
          exact h5 d hd r (herase r hr)
      · rw [if_neg hst] at h
        cases h
        refine ⟨by simp [hinf], by simp [hinf], by simp [hinf], ?_, ?_⟩
        · intro r hr
          have := h4 r (herase r hr)
          show r ≤ t + 2000
          omega
        · intro d hd r hr
          have := h4 r (herase r hr)
          have hd' : (if s.reload = true then none else some (t + 2000)) = some d := hd
          by_cases hrl : s.reload = true
          · rw [if_pos hrl] at hd'
            cases hd'
          · rw [if_neg hrl] at hd'
            simp only [Option.some.injEq] at hd'
            omega
    · rw [if_neg hg] at h
      cases h
  | resolveOk t i =>
    simp only [step] at h
    cases hq : s.inflight[i]? with
    | none => rw [hq] at h; cases h
    | some req =>
      simp only [hq] at h
      by_cases hg : (decide (s.now ≤ t) && atMostTimer s t && atMostRetries s t) = true
      · rw [if_pos hg] at h
        simp only [Bool.and_eq_true, decide_eq_true_eq] at hg
        have hnow : s.now ≤ t := hg.1.1
        obtain ⟨hl, hi0⟩ := getElem?_singleton s.inflight i req hq h1
        have herase : s.inflight.eraseIdx i = [] := by
          rw [hl, hi0]
          rfl
        cases hc : req.target with
        | some k =>
          rw [hc] at h
          cases h
          refine ⟨by simp [herase], by simp, by simp [herase], ?_, by simp⟩
          intro r hr
          have := h4 r hr
          show r ≤ t + 2000
          omega
        | none =>
          rw [hc] at h
          cases h
          refine ⟨by simp [herase], by simp, by simp [herase], ?_, by simp⟩
          intro r hr
          have := h4 r hr
          show r ≤ t + 2000
          omega
      · rw [if_neg hg] at h
        cases h
  | resolveErr t i =>
    simp only [step] at h
    cases hq : s.inflight[i]? with
    | none => rw [hq] at h; cases h
    | some req =>
      simp only [hq] at h
      by_cases hg : (decide (s.now ≤ t) && atMostTimer s t && atMostRetries s t) = true
      · rw [if_pos hg] at h
        simp only [Bool.and_eq_true, decide_eq_true_eq] at hg
        have hnow : s.now ≤ t := hg.1.1
        obtain ⟨hl, hi0⟩ := getElem?_singleton s.inflight i req hq h1
        have herase : s.inflight.eraseIdx i = [] := by
          rw [hl, hi0]
          rfl
        cases h
        refine ⟨by simp [herase], by simp, by simp [herase], ?_, by simp⟩
        intro r hr
        have hr' : r ∈ (t + 2000) :: s.retryAt := hr
        show r ≤ t + 2000
        simp only [List.mem_cons] at hr'
        rcases hr' with hr' | hr'
        · omega
        · have := h4 r hr'
          omega
      · rw [if_neg hg] at h
        cases h
  | reloadDone t =>
    simp only [step] at h
    by_cases hg : (s.reload && decide (s.now ≤ t) && atMostTimer s t &&
        atMostRetries s t) = true
    · rw [if_pos hg] at h
      simp only [Bool.and_eq_true, decide_eq_true_eq] at hg
      have hnow : s.now ≤ t := hg.1.1.2
      cases h
      refine ⟨h1, by simp, by simpa using h3, ?_, by simp⟩
      intro r hr
      have := h4 r hr
      show r ≤ t + 2000
      omega
    · rw [if_neg hg] at h
      cases h

/-- Boolean trace discipline: every edit event happens while no save is in
flight (checked along the run). -/
def editsSafe (s : EdState) : List Ev → Bool
  | [] => true
  | e :: tr =>
    (!e.isEdit || s.inflight.isEmpty) &&
      (match step s e with
       | none => true
       | some s1 => editsSafe s1 tr)

lemma EdInv_run : ∀ (tr : List Ev) (s s' : EdState), EdInv s →
    editsSafe s tr = true → run s tr = some s' → EdInv s' := by
  intro tr
  induction tr with
  | nil =>
    intro s s' hi _ hrun
    simp only [run, Option.some.injEq] at hrun
    exact hrun ▸ hi
  | cons e tr ih =>
    intro s s' hi hsafe hrun
    simp only [run] at hrun
    cases hstep : step s e with
    | none => rw [hstep] at hrun; cases hrun
    | some s1 =>
      rw [hstep] at hrun
      simp only [editsSafe, hstep, Bool.and_eq_true] at hsafe
      have hed : e.isEdit = true → s.inflight = [] := by
        intro he
        have hx := hsafe.1
        rw [he] at hx
        simpa [List.isEmpty_iff] using hx
      exact ih s1 s' (EdInv_step s e s1 hi hed hstep) hsafe.2 hrun

lemma EdInv_editorInit (cid : Option Nat) (ti co : String) :
    EdInv (editorInit cid ti co) := by
  refine ⟨by simp [editorInit], by simp [editorInit], by simp [editorInit],
    ?_, ?_⟩
  · intro r hr
    simp [editorInit] at hr
  · intro d hd
    simp [editorInit] at hd

/-- C1 amended: provided no edit event occurs while a save is in flight, at
most one save request is ever in flight in the chapter editor — for every
event trace from a freshly loaded editor, every reachable state has at most
one unresolved save request. -/
theorem editor_single_inflight_amended (cid : Option Nat) (ti co : String)
    (tr : List Ev) (s' : EdState)
    (hsafe : editsSafe (editorInit cid ti co) tr = true)
    (hrun : run (editorInit cid ti co) tr = some s') :
    s'.inflight.length ≤ 1 :=
  (EdInv_run tr (editorInit cid ti co) s' (EdInv_editorInit cid ti co) hsafe hrun).1

/-- The end state of the C1 witness trace. -/
def c1wState : EdState :=
  { now := 2500, status := SaveStatus.saved, timer := none, retryAt := [],
    chapterId := some 7, title := "a", content := "b", inflight := [],
    issued := [{ issuedAt := 2000, target := some 7, newId := 0,
                 pTitle := "a", pContent := "b" }],
    createdIds := [], serverTitle := "a", serverContent := "b",
    reload := false, nextId := 1 }

/-- Witness for the amended C1 at a concrete edit-fire-resolve trace. -/
theorem editor_single_inflight_amended_witness :
    editsSafe (editorInit (some 7) "t" "c")
        [Ev.edit 0 "a" "b", Ev.fire 2000, Ev.resolveOk 2500 0] = true ∧
      run (editorInit (some 7) "t" "c")
          [Ev.edit 0 "a" "b", Ev.fire 2000, Ev.resolveOk 2500 0] = some c1wState ∧
      c1wState.inflight.length ≤ 1 :=
  ⟨by decide, by decide,
    editor_single_inflight_amended (some 7) "t" "c"
      [Ev.edit 0 "a" "b", Ev.fire 2000, Ev.resolveOk 2500 0] c1wState
      (by decide) (by decide)⟩

/-! ## C3 amended: one create, then updates to the captured id -/

/-- Identity bookkeeping invariant of a new-chapter session: no record exists
until the editor knows an id; once it knows `some k`, exactly the record `k`
was created; every in-flight request targets the identity known when it was
issued; and every logged request was either the create or an update to the
currently known id. -/
def EdInv3 (s : EdState) : Prop :=
  (s.chapterId = none → s.createdIds = []) ∧
    (∀ k, s.chapterId = some k → s.createdIds = [k]) ∧
    (∀ r ∈ s.inflight, r.target = s.chapterId) ∧
    (∀ r ∈ s.issued, r.target = none ∨ r.target = s.chapterId)

lemma EdInv3_step (s : EdState) (e : Ev) (s' : EdState) (hi : EdInv s)
    (hi3 : EdInv3 s) (hsafe : e.isEdit = true → s.inflight = [])
    (h : step s e = some s') : EdInv3 s' := by
  obtain ⟨g1, g2, g3, g4⟩ := hi3
  cases e with
  | edit t ti co =>
    simp only [step] at h
    by_cases hg : (decide (s.now ≤ t) && !s.reload && beforeTimer s t &&
        beforeRetries s t) = true
    · rw [if_pos hg] at h
      cases h
      exact ⟨g1, g2, g3, g4⟩
    · rw [if_neg hg] at h
      cases h
  | fire t =>
    simp only [step] at h
    by_cases hg : (s.timer == some t && decide (s.now ≤ t) &&
        beforeRetries s t) = true
    · rw [if_pos hg] at h
      cases h
      refine ⟨g1, g2, ?_, ?_⟩
      · intro r hr
        have hr' : r ∈ mkReq s t :: s.inflight := hr
        rcases List.mem_cons.mp hr' with hr' | hr'
        · subst hr'
          rfl
        · exact g3 r hr'
      · intro r hr
        have hr' : r ∈ mkReq s t :: s.issued := hr
        rcases List.mem_cons.mp hr' with hr' | hr'
        · subst hr'
          exact Or.inr rfl
        · exact g4 r hr'
    · rw [if_neg hg] at h
      cases h
  | retryFire t =>
    simp only [step] at h
    by_cases hg : (s.retryAt.contains t && decide (s.now ≤ t) && atMostTimer s t &&
        atMostRetries s t) = true
    · rw [if_pos hg] at h
      by_cases hst : (s.status == SaveStatus.dirty) = true
      · rw [if_pos hst] at h
        cases h
        exact ⟨g1, g2, g3, g4⟩
      · rw [if_neg hst] at h
        cases h
        exact ⟨g1, g2, g3, g4⟩
    · rw [if_neg hg] at h
      cases h
  | resolveOk t i =>
    simp only [step] at h
    cases hq : s.inflight[i]? with
    | none => rw [hq] at h; cases h
    | some req =>
      simp only [hq] at h
      by_cases hg : (decide (s.now ≤ t) && atMostTimer s t && atMostRetries s t) = true
      · rw [if_pos hg] at h
        have hreqmem : req ∈ s.inflight := by
          have := List.getElem?_eq_some.mp hq
          obtain ⟨hlt, hget⟩ := this
          exact hget ▸ List.getElem_mem hlt
        have htarget : req.target = s.chapterId := g3 req hreqmem
        obtain ⟨hl, hi0⟩ := getElem?_singleton s.inflight i req hq hi.1
        cases hc : req.target with
        | some k =>
          rw [hc] at h
          cases h
          refine ⟨g1, g2, ?_, g4⟩
          intro r hr
          have hr' : r ∈ s.inflight.eraseIdx i := hr
          rw [hl, hi0] at hr'
          cases hr'
        | none =>
          rw [hc] at h
          have hcid : s.chapterId = none := by rw [← htarget, hc]
          have hcreated : s.createdIds = [] := g1 hcid
          cases h
          refine ⟨?_, ?_, ?_, ?_⟩
          · intro hx
            cases hx
          · intro k hk
            have hk' : some req.newId = some k := hk
            simp only [Option.some.injEq] at hk'
            show req.newId :: s.createdIds = [k]
            rw [hcreated, hk']
          · intro r hr
            have hr' : r ∈ s.inflight.eraseIdx i := hr
            rw [hl, hi0] at hr'
            cases hr'
          · intro r hr
            rcases g4 r hr with hx | hx
            · exact Or.inl hx
            · rw [hcid] at hx
              exact Or.inl hx
      · rw [if_neg hg] at h
        cases h
  | resolveErr t i =>
    simp only [step] at h
    cases hq : s.inflight[i]? with
    | none => rw [hq] at h; cases h
    | some req =>
      simp only [hq] at h
      by_cases hg : (decide (s.now ≤ t) && atMostTimer s t && atMostRetries s t) = true
      · rw [if_pos hg] at h
        obtain ⟨hl, hi0⟩ := getElem?_singleton s.inflight i req hq hi.1
        cases h
        refine ⟨g1, g2, ?_, g4⟩
        intro r hr
        have hr' : r ∈ s.inflight.eraseIdx i := hr
        rw [hl, hi0] at hr'
        cases hr'
      · rw [if_neg hg] at h
        cases h
  | reloadDone t =>
    simp only [step] at h
    by_cases hg : (s.reload && decide (s.now ≤ t) && atMostTimer s t &&
        atMostRetries s t) = true
    · rw [if_pos hg] at h
      cases h
      exact ⟨g1, g2, g3, g4⟩
    · rw [if_neg hg] at h
      cases h

lemma EdInv3_run : ∀ (tr : List Ev) (s s' : EdState), EdInv s → EdInv3 s →
    editsSafe s tr = true → run s tr = some s' → EdInv3 s' := by
  intro tr
  induction tr with
  | nil =>
    intro s s' _ hi3 _ hrun
    simp only [run, Option.some.injEq] at hrun
    exact hrun ▸ hi3
  | cons e tr ih =>
    intro s s' hi hi3 hsafe hrun
    simp only [run] at hrun
    cases hstep : step s e with
    | none => rw [hstep] at hrun; cases hrun
    | some s1 =>
      rw [hstep] at hrun
      simp only [editsSafe, hstep, Bool.and_eq_true] at hsafe
      have hed : e.isEdit = true → s.inflight = [] := by
        intro he
        have hx := hsafe.1
        rw [he] at hx
        simpa [List.isEmpty_iff] using hx
      exact ih s1 s' (EdInv_step s e s1 hi hed hstep)
        (EdInv3_step s e s1 hi hi3 hed hstep) hsafe.2 hrun

/-- C3 amended: in a new-chapter session, provided no edit occurs while a save
is in flight, at most one chapter record is ever created; once the editor has
captured the server-assigned id it is exactly the created record's id; and
every issued save is either the initial create or an update to that captured
id — no duplicate records from one editing session. -/
theorem editor_first_save_identity_amended (ti co : String) (tr : List Ev)
    (s' : EdState)
    (hsafe : editsSafe (editorInit none ti co) tr = true)
    (hrun : run (editorInit none ti co) tr = some s') :
    s'.createdIds.length ≤ 1 ∧
      (∀ k, s'.chapterId = some k → s'.createdIds = [k]) ∧
      (∀ r ∈ s'.issued, r.target = none ∨ r.target = s'.chapterId) := by
  have hinit3 : EdInv3 (editorInit none ti co) := by
    refine ⟨fun _ => rfl, ?_, ?_, ?_⟩
    · intro k hk
      cases hk
    · intro r hr
      cases hr
    · intro r hr
      cases hr
  have h3 := EdInv3_run tr (editorInit none ti co) s'
    (EdInv_editorInit none ti co) hinit3 hsafe hrun
  obtain ⟨g1, g2, _, g4⟩ := h3
  refine ⟨?_, g2, g4⟩
  cases hc : s'.chapterId with
  | none => rw [g1 hc]; simp
  | some k => rw [g2 k hc]; simp

/-- The end state of the C3 witness trace. -/
def c3wState : EdState :=
  { now := 2600, status := SaveStatus.idle, timer := none, retryAt := [],
    chapterId := some 0, title := "a", content := "b", inflight := [],
    issued := [{ issuedAt := 2000, target := none, newId := 0,
                 pTitle := "a", pContent := "b" }],
    createdIds := [0], serverTitle := "a", serverContent := "b",
    reload := false, nextId := 1 }

/-- Witness for the amended C3 at a concrete new-chapter session. -/
theorem editor_first_save_identity_amended_witness :
    editsSafe (editorInit none "t" "c")
        [Ev.edit 0 "a" "b", Ev.fire 2000, Ev.resolveOk 2500 0,
         Ev.reloadDone 2600] = true ∧
      run (editorInit none "t" "c")
          [Ev.edit 0 "a" "b", Ev.fire 2000, Ev.resolveOk 2500 0,
           Ev.reloadDone 2600] = some c3wState ∧
      c3wState.createdIds.length ≤ 1 :=
  ⟨by decide, by decide,
    (editor_first_save_identity_amended "t" "c"
      [Ev.edit 0 "a" "b", Ev.fire 2000, Ev.resolveOk 2500 0, Ev.reloadDone 2600]
      c3wState (by decide) (by decide)).1⟩

/-! ## C2: trailing debounce -/

/-- No debounce timer, stray retry, in-flight request or reload is pending:
the editor is at rest and only a user edit can make it act again. -/
def quietPend (s : EdState) : Bool :=
  s.timer.isNone && s.retryAt.isEmpty && s.inflight.isEmpty && !s.reload

/-- C2 counterexample trace: burst one is the edit at t=0 (save fired at 2000),
burst two is the edit at t=2500 — more than 2000ms after burst one — made
while the first save is still in flight; the first save then succeeds at
t=3000, inside the second debounce window. -/
def c2Trace : List Ev :=
  [Ev.edit 0 "a" "x", Ev.fire 2000, Ev.edit 2500 "a" "xy", Ev.resolveOk 3000 0]

/-- The editor state after `c2Trace`. -/
def c2cState : EdState :=
  { now := 3000, status := SaveStatus.saved, timer := none, retryAt := [],
    chapterId := some 7, title := "a", content := "xy", inflight := [],
    issued := [{ issuedAt := 2000, target := some 7, newId := 0,
                 pTitle := "a", pContent := "x" }],
    createdIds := [], serverTitle := "a", serverContent := "x",
    reload := false, nextId := 1 }

/-- C2 counterexample: two edit bursts separated by more than 2000ms of
silence, every resolution successful — yet only ONE save request was ever
issued: the success re-render's cleanup cancelled the second burst's pending
debounce timer, and the editor is left at rest (`quietPend`), so no further
save can be issued without another edit.  The claim's "exactly two" fails. -/
theorem editor_two_bursts_one_save_counterexample :
    run (editorInit (some 7) "t" "c") c2Trace = some c2cState ∧
      c2cState.issued.length = 1 ∧
      quietPend c2cState = true ∧
      c2cState.status = SaveStatus.saved := by
  refine ⟨by decide, by decide, by decide, by decide⟩

/-- One burst edit: its time and the title/content it delivers. -/
structure EditSpec where
  t : Nat
  ti : String
  co : String
deriving DecidableEq, Repr

/-- The edit event of a burst element. -/
def EditSpec.toEv (e : EditSpec) : Ev :=
  Ev.edit e.t e.ti e.co

/-- Consecutive edits are in order with inter-edit gaps below 2000ms. -/
def gapsOk (prev : Nat) : List EditSpec → Bool
  | [] => true
  | e :: es => decide (prev ≤ e.t) && decide (e.t < prev + 2000) && gapsOk e.t es

/-- A nonempty burst starting no earlier than `now`, with gaps below 2000ms. -/
def burstOk (now : Nat) : List EditSpec → Bool
  | [] => false
  | e :: es => decide (now ≤ e.t) && gapsOk e.t es

/-- The time of the last edit of a burst. -/
def lastT : List EditSpec → Nat
  | [] => 0
  | e :: es =>
    match es with
    | [] => e.t
    | _ :: _ => lastT es

/-- The time of the first edit of a burst. -/
def firstT : List EditSpec → Nat
  | [] => 0
  | e :: _ => e.t

/-- The edit events of a trace. -/
def editsOf (tr : List Ev) : List Ev :=
  tr.filter Ev.isEdit

/-- Every resolution in the trace is a success. -/
def allOkEv (tr : List Ev) : Bool :=
  tr.all (fun e => !e.isErr)

/-- The issue times of all save requests ever issued (most recent first). -/
def issuedTimes (s : EdState) : List Nat :=
  s.issued.map (fun r => r.issuedAt)

lemma lastT_cons_ne (e : EditSpec) (es : List EditSpec) (h : es ≠ []) :
    lastT (e :: es) = lastT es := by
  cases es with
  | nil => exact absurd rfl h
  | cons f fs => rfl

lemma quietPend_spec (s : EdState) (h : quietPend s = true) :
    s.timer = none ∧ s.retryAt = [] ∧ s.inflight = [] ∧ s.reload = false := by
  simp only [quietPend, Bool.and_eq_true, Option.isNone_iff_eq_none,
    List.isEmpty_iff, Bool.not_eq_true'] at h
  exact ⟨h.1.1.1, h.1.1.2, h.1.2, h.2⟩

lemma step_now (s : EdState) (e : Ev) (s' : EdState)
    (h : step s e = some s') : s.now ≤ e.time ∧ s'.now = e.time := by
  cases e with
  | edit t ti co =>
    simp only [step] at h
    by_cases hg : (decide (s.now ≤ t) && !s.reload && beforeTimer s t &&
        beforeRetries s t) = true
    · rw [if_pos hg] at h
      simp only [Bool.and_eq_true, decide_eq_true_eq] at hg
      cases h
      exact ⟨hg.1.1.1, rfl⟩
    · rw [if_neg hg] at h
      cases h
  | fire t =>
    simp only [step] at h
    by_cases hg : (s.timer == some t && decide (s.now ≤ t) &&
        beforeRetries s t) = true
    · rw [if_pos hg] at h
      simp only [Bool.and_eq_true, decide_eq_true_eq] at hg
      cases h
      exact ⟨hg.1.2, rfl⟩
    · rw [if_neg hg] at h
      cases h
  | retryFire t =>
    simp only [step] at h
    by_cases hg : (s.retryAt.contains t && decide (s.now ≤ t) && atMostTimer s t &&
        atMostRetries s t) = true
    · rw [if_pos hg] at h
      simp only [Bool.and_eq_true, decide_eq_true_eq] at hg
      by_cases hst : (s.status == SaveStatus.dirty) = true
      · rw [if_pos hst] at h
        cases h
        exact ⟨hg.1.1.2, rfl⟩
      · rw [if_neg hst] at h
        cases h
        exact ⟨hg.1.1.2, rfl⟩
    · rw [if_neg hg] at h
      cases h
  | resolveOk t i =>
    simp only [step] at h
    cases hq : s.inflight[i]? with
    | none => rw [hq] at h; cases h
    | some req =>
      simp only [hq] at h
      by_cases hg : (decide (s.now ≤ t) && atMostTimer s t && atMostRetries s t) = true
      · rw [if_pos hg] at h
        simp only [Bool.and_eq_true, decide_eq_true_eq] at hg
        cases hc : req.target with
        | some k =>
          rw [hc] at h
          cases h
          exact ⟨hg.1.1, rfl⟩
        | none =>
          rw [hc] at h
          cases h
          exact ⟨hg.1.1, rfl⟩
      · rw [if_neg hg] at h
        cases h
  | resolveErr t i =>
    simp only [step] at h
    cases hq : s.inflight[i]? with
    | none => rw [hq] at h; cases h
    | some req =>
      simp only [hq] at h
      by_cases hg : (decide (s.now ≤ t) && atMostTimer s t && atMostRetries s t) = true
      · rw [if_pos hg] at h
        simp only [Bool.and_eq_true, decide_eq_true_eq] at hg
        cases h
        exact ⟨hg.1.1, rfl⟩
      · rw [if_neg hg] at h
        cases h
  | reloadDone t =>
    simp only [step] at h
    by_cases hg : (s.reload && decide (s.now ≤ t) && atMostTimer s t &&
        atMostRetries s t) = true
    · rw [if_pos hg] at h
      simp only [Bool.and_eq_true, decide_eq_true_eq] at hg
      cases h
      exact ⟨hg.1.1.2, rfl⟩
    · rw [if_neg hg] at h
      cases h

lemma run_now_mono : ∀ (tr : List Ev) (s s' : EdState),
    run s tr = some s' → ∀ e ∈ tr, s.now ≤ e.time := by
  intro tr
  induction tr with
  | nil =>
    intro s s' _ e he
    cases he
  | cons f tr ih =>
    intro s s' hrun e he
    simp only [run] at hrun
    cases hstep : step s f with
    | none => rw [hstep] at hrun; cases hrun
    | some s1 =>
      rw [hstep] at hrun
      obtain ⟨hle, hnow⟩ := step_now s f s1 hstep
      rcases List.mem_cons.mp he with he | he
      · exact he ▸ hle
      · have := ih s1 s' hrun e he
        omega

/-- Remaining-burst invariant during the editing phase: every remaining edit
is no earlier than now, the next one lands before the pending deadline `d`,
and the gaps stay below 2000ms. -/
def remOk (now d : Nat) : List EditSpec → Bool
  | [] => true
  | e :: es => decide (now ≤ e.t) && decide (e.t < d) && gapsOk e.t es

/-- The issue time of the burst's save: the pending deadline if no edits
remain, else 2000ms after the last remaining edit. -/
def endT (d : Nat) : List EditSpec → Nat
  | [] => d
  | e :: es => lastT (e :: es) + 2000

lemma phaseC : ∀ (tr : List Ev) (s s' : EdState), quietPend s = true →
    editsOf tr = [] → run s tr = some s' → s' = s := by
  intro tr
  induction tr with
  | nil =>
    intro s s' _ _ hrun
    simp only [run, Option.some.injEq] at hrun
    exact hrun.symm
  | cons f tr ih =>
    intro s s' hq hne hrun
    simp only [run] at hrun
    cases hstep : step s f with
    | none => rw [hstep] at hrun; cases hrun
    | some s1 =>
      rw [hstep] at hrun
      obtain ⟨ht, hr, hf, hrl⟩ := quietPend_spec s hq
      cases f with
      | edit t ti co => simp [editsOf, List.filter_cons, Ev.isEdit] at hne
      | fire t => simp [step, ht] at hstep
      | retryFire t => simp [step, hr] at hstep
      | resolveOk t i => simp [step, hf] at hstep
      | resolveErr t i => simp [step, hf] at hstep
      | reloadDone t => simp [step, hrl] at hstep

lemma phaseCr : ∀ (tr : List Ev) (s s' : EdState),
    s.timer = none → s.retryAt = [] → s.inflight = [] → s.reload = true →
    editsOf tr = [] → run s tr = some s' → quietPend s' = true →
    s'.issued = s.issued := by
  intro tr
  induction tr with
  | nil =>
    intro s s' _ _ _ hrl _ hrun hq
    simp only [run, Option.some.injEq] at hrun
    rw [← hrun] at hq
    simp [quietPend, hrl] at hq
  | cons f tr ih =>
    intro s s' ht hr hf hrl hne hrun hq
    simp only [run] at hrun
    cases hstep : step s f with
    | none => rw [hstep] at hrun; cases hrun
    | some s1 =>
      rw [hstep] at hrun
      cases f with
      | edit t ti co => simp [editsOf, List.filter_cons, Ev.isEdit] at hne
      | fire t => simp [step, ht] at hstep
      | retryFire t => simp [step, hr] at hstep
      | resolveOk t i => simp [step, hf] at hstep
      | resolveErr t i => simp [step, hf] at hstep
      | reloadDone t =>
        simp only [step] at hstep
        by_cases hg : (s.reload && decide (s.now ≤ t) && atMostTimer s t &&
            atMostRetries s t) = true
        · rw [if_pos hg] at hstep
          cases hstep
          have hne' : editsOf tr = [] := by
            simpa [editsOf, List.filter_cons, Ev.isEdit] using hne
          have hs := phaseC tr _ s' (by simp [quietPend, hr, hf]) hne' hrun
          rw [hs]
        · rw [if_neg hg] at hstep
          cases hstep

lemma phaseB : ∀ (tr : List Ev) (s s' : EdState) (req : SaveReq),
    s.timer = none → s.retryAt = [] → s.inflight = [req] → s.reload = false →
    editsOf tr = [] → allOkEv tr = true → run s tr = some s' →
    quietPend s' = true → s'.issued = s.issued := by
  intro tr
  induction tr with
  | nil =>
    intro s s' req _ _ hf _ _ _ hrun hq
    simp only [run, Option.some.injEq] at hrun
    rw [← hrun] at hq
    simp [quietPend, hf] at hq
  | cons f tr ih =>
    intro s s' req ht hr hf hrl hne hok hrun hq
    simp only [run] at hrun
    cases hstep : step s f with
    | none => rw [hstep] at hrun; cases hrun
    | some s1 =>
      rw [hstep] at hrun
      have hok' : allOkEv tr = true := by
        simp only [allOkEv, List.all_cons, Bool.and_eq_true] at hok
        exact hok.2
      cases f with
      | edit t ti co => simp [editsOf, List.filter_cons, Ev.isEdit] at hne
      | fire t => simp [step, ht] at hstep
      | retryFire t => simp [step, hr] at hstep
      | resolveErr t i => simp [allOkEv, Ev.isErr] at hok
      | reloadDone t => simp [step, hrl] at hstep
      | resolveOk t i =>
        have hne' : editsOf tr = [] := by
          simpa [editsOf, List.filter_cons, Ev.isEdit] using hne
        simp only [step, hf] at hstep
        cases i with
        | succ j => simp at hstep
        | zero =>
          simp only [List.getElem?_cons_zero] at hstep
          by_cases hg : (decide (s.now ≤ t) && atMostTimer s t &&
              atMostRetries s t) = true
          · rw [if_pos hg] at hstep
            cases hc : req.target with
            | some k =>
              rw [hc] at hstep
              cases hstep
              have hs := phaseC tr _ s'
                (by simp [quietPend, hr, hf, hrl]) hne' hrun
              rw [hs]
            | none =>
              rw [hc] at hstep
              cases hstep
              have hs := phaseCr tr { s with now := t, status := SaveStatus.saved, timer := none, inflight := ([] : List SaveReq), chapterId := some req.newId, createdIds := req.newId :: s.createdIds, serverTitle := req.pTitle, serverContent := req.pContent, reload := true } s' rfl hr rfl rfl hne' hrun hq
              rw [hs]
          · rw [if_neg hg] at hstep
            cases hstep

lemma phaseA : ∀ (tr : List Ev) (bs : List EditSpec) (s s' : EdState) (d : Nat),
    s.timer = some d → s.retryAt = [] → s.inflight = [] → s.reload = false →
    remOk s.now d bs = true →
    editsOf tr = bs.map EditSpec.toEv → allOkEv tr = true →
    run s tr = some s' → quietPend s' = true →
    issuedTimes s' = endT d bs :: issuedTimes s := by
  intro tr
  induction tr with
  | nil =>
    intro bs s s' d ht _ _ _ _ _ _ hrun hq
    simp only [run, Option.some.injEq] at hrun
    rw [← hrun] at hq
    simp [quietPend, ht] at hq
  | cons f tr ih =>
    intro bs s s' d ht hr hf hrl hrem hne hok hrun hq
    simp only [run] at hrun
    cases hstep : step s f with
    | none => rw [hstep] at hrun; cases hrun
    | some s1 =>
      rw [hstep] at hrun
      have hok' : allOkEv tr = true := by
        simp only [allOkEv, List.all_cons, Bool.and_eq_true] at hok
        exact hok.2
      cases f with
      | retryFire t => simp [step, hr] at hstep
      | resolveOk t i => simp [step, hf] at hstep
      | resolveErr t i => simp [step, hf] at hstep
      | reloadDone t => simp [step, hrl] at hstep
      | fire t =>
        simp only [step, hf] at hstep
        by_cases hg : (s.timer == some t && decide (s.now ≤ t) &&
            beforeRetries s t) = true
        · rw [if_pos hg] at hstep
          simp only [Bool.and_eq_true, beq_iff_eq, decide_eq_true_eq] at hg
          have hdt : d = t := by
            have := hg.1.1
            rw [ht] at this
            exact Option.some.inj this
          cases bs with
          | cons b bs' =>
            -- a remaining edit would have to postdate the fire, contradiction
            have hbmem : EditSpec.toEv b ∈ tr := by
              have hh : EditSpec.toEv b ∈ editsOf tr := by
                have : editsOf (Ev.fire t :: tr) = editsOf tr := by
                  simp [editsOf, List.filter_cons, Ev.isEdit]
                rw [← this, hne]
                exact List.mem_cons_self _ _
              exact List.mem_of_mem_filter hh
            cases hstep
            have hmono := run_now_mono tr _ s' hrun (EditSpec.toEv b) hbmem
            have hnow1 : (EditSpec.toEv b).time = b.t := rfl
            simp only [remOk, Bool.and_eq_true, decide_eq_true_eq] at hrem
            have hlt : b.t < d := hrem.1.2
            have : t ≤ b.t := by
              have hx : ({ s with now := t, status := SaveStatus.saving, timer := none, inflight := mkReq s t :: [], issued := mkReq s t :: s.issued, nextId := s.nextId + 1 } : EdState).now ≤ (EditSpec.toEv b).time := hmono
              rw [hnow1] at hx
              exact hx
            omega
          | nil =>
            cases hstep
            have hne' : editsOf tr = [] := by
              simpa [editsOf, List.filter_cons, Ev.isEdit] using hne
            have hs := phaseB tr { s with now := t, status := SaveStatus.saving, timer := none, inflight := [mkReq s t], issued := mkReq s t :: s.issued, nextId := s.nextId + 1 } s' (mkReq s t) rfl hr rfl hrl hne' hok' hrun hq
            have hs' : s'.issued = mkReq s t :: s.issued := hs
            show issuedTimes s' = d :: issuedTimes s
            rw [issuedTimes, hs', List.map_cons, hdt]
            rfl
        · rw [if_neg hg] at hstep
          cases hstep
      | edit t ti co =>
        cases bs with
        | nil => simp [editsOf, List.filter_cons, Ev.isEdit] at hne
        | cons b bs' =>
          have hne2 : Ev.edit t ti co :: editsOf tr =
              EditSpec.toEv b :: bs'.map EditSpec.toEv := by
            simpa [editsOf, List.filter_cons, Ev.isEdit] using hne
          injection hne2 with hh ht2
          have hh' : Ev.edit t ti co = Ev.edit b.t b.ti b.co := hh
          injection hh' with h1 h2 h3
          simp only [step] at hstep
          by_cases hg : (decide (s.now ≤ t) && !s.reload && beforeTimer s t &&
              beforeRetries s t) = true
          · rw [if_pos hg] at hstep
            cases hstep
            simp only [remOk, Bool.and_eq_true, decide_eq_true_eq] at hrem
            have hgaps : gapsOk b.t bs' = true := hrem.2
            have hrem' : remOk t (t + 2000) bs' = true := by
              cases bs' with
              | nil => rfl
              | cons e1 es =>
                simp only [gapsOk, Bool.and_eq_true, decide_eq_true_eq] at hgaps
                simp only [remOk, Bool.and_eq_true, decide_eq_true_eq]
                refine ⟨⟨?_, ?_⟩, hgaps.2⟩
                · omega
                · omega
            have hI := ih bs' { s with now := t, status := SaveStatus.dirty, title := ti, content := co, timer := some (t + 2000) } s' (t + 2000) rfl hr hf hrl hrem' ht2 hok' hrun hq
            have hI' : issuedTimes s' = endT (t + 2000) bs' :: issuedTimes s := hI
            rw [hI']
            have hend : endT (t + 2000) bs' = endT d (b :: bs') := by
              cases bs' with
              | nil =>
                show t + 2000 = lastT [b] + 2000
                have : lastT [b] = b.t := rfl
                omega
              | cons e1 es =>
                show lastT (e1 :: es) + 2000 = lastT (b :: e1 :: es) + 2000
                rw [lastT_cons_ne b (e1 :: es) (by simp)]
            rw [hend]
          · rw [if_neg hg] at hstep
            cases hstep

lemma burst_run : ∀ (tr : List Ev) (bs : List EditSpec) (s s' : EdState),
    quietPend s = true → burstOk s.now bs = true →
    editsOf tr = bs.map EditSpec.toEv → allOkEv tr = true →
    run s tr = some s' → quietPend s' = true →
    issuedTimes s' = (lastT bs + 2000) :: issuedTimes s := by
  intro tr bs s s' hqs hburst hne hok hrun hq
  obtain ⟨ht, hr, hf, hrl⟩ := quietPend_spec s hqs
  cases bs with
  | nil => simp [burstOk] at hburst
  | cons b bs' =>
    cases tr with
    | nil =>
      simp [editsOf] at hne
    | cons f tr' =>
      simp only [run] at hrun
      cases hstep : step s f with
      | none => rw [hstep] at hrun; cases hrun
      | some s1 =>
        rw [hstep] at hrun
        have hok' : allOkEv tr' = true := by
          simp only [allOkEv, List.all_cons, Bool.and_eq_true] at hok
          exact hok.2
        cases f with
        | fire t => simp [step, ht] at hstep
        | retryFire t => simp [step, hr] at hstep
        | resolveOk t i => simp [step, hf] at hstep
        | resolveErr t i => simp [step, hf] at hstep
        | reloadDone t => simp [step, hrl] at hstep
        | edit t ti co =>
          have hne2 : Ev.edit t ti co :: editsOf tr' =
              EditSpec.toEv b :: bs'.map EditSpec.toEv := by
            simpa [editsOf, List.filter_cons, Ev.isEdit] using hne
          injection hne2 with hh ht2
          have hh' : Ev.edit t ti co = Ev.edit b.t b.ti b.co := hh
          injection hh' with h1 h2 h3
          simp only [step] at hstep
          by_cases hg : (decide (s.now ≤ t) && !s.reload && beforeTimer s t &&
              beforeRetries s t) = true
          · rw [if_pos hg] at hstep
            cases hstep
            simp only [burstOk, Bool.and_eq_true, decide_eq_true_eq] at hburst
            have hgaps : gapsOk b.t bs' = true := hburst.2
            have hrem' : remOk t (t + 2000) bs' = true := by
              cases bs' with
              | nil => rfl
              | cons e1 es =>
                simp only [gapsOk, Bool.and_eq_true, decide_eq_true_eq] at hgaps
                simp only [remOk, Bool.and_eq_true, decide_eq_true_eq]
                refine ⟨⟨?_, ?_⟩, hgaps.2⟩
                · omega
                · omega
            have hI := phaseA tr' bs' { s with now := t, status := SaveStatus.dirty, title := ti, content := co, timer := some (t + 2000) } s' (t + 2000) rfl hr hf hrl hrem' ht2 hok' hrun hq
            have hI' : issuedTimes s' = endT (t + 2000) bs' :: issuedTimes s := hI
            rw [hI']
            have hend : endT (t + 2000) bs' = lastT (b :: bs') + 2000 := by
              cases bs' with
              | nil =>
                show t + 2000 = lastT [b] + 2000
                have : lastT [b] = b.t := rfl
                omega
              | cons e1 es =>
                show lastT (e1 :: es) + 2000 = lastT (b :: e1 :: es) + 2000
                rw [lastT_cons_ne b (e1 :: es) (by simp)]
            rw [hend]
          · rw [if_neg hg] at hstep
            cases hstep

/-- C2 amended: trailing debounce of auto-save, for complete sessions (the run
ends with the editor at rest) in which every resolution succeeds.
Part 1 (as claimed): a single burst of edits with inter-edit gaps below 2000ms
issues exactly one save request, 2000ms after the last edit of the burst.
Part 2 (amended): two bursts separated by more than 2000ms of silence issue
exactly two save requests, one per burst at last-edit + 2000ms, PROVIDED the
first burst's save resolves before the second burst begins (the trace splits
at a rest point before the second burst); when instead the first save's
success lands inside the second burst's debounce window, the pending auto-save
is cancelled and only one request is issued (see the counterexample). -/
theorem editor_trailing_debounce_amended :
    (∀ (cid : Option Nat) (ti co : String) (bs : List EditSpec) (tr : List Ev)
        (s' : EdState),
        burstOk 0 bs = true →
        editsOf tr = bs.map EditSpec.toEv →
        allOkEv tr = true →
        run (editorInit cid ti co) tr = some s' →
        quietPend s' = true →
        issuedTimes s' = [lastT bs + 2000]) ∧
    (∀ (cid : Option Nat) (ti co : String) (bs1 bs2 : List EditSpec)
        (trA trB : List Ev) (sA s' : EdState),
        burstOk 0 bs1 = true →
        editsOf trA = bs1.map EditSpec.toEv →
        allOkEv trA = true →
        run (editorInit cid ti co) trA = some sA →
        quietPend sA = true →
        lastT bs1 + 2000 < firstT bs2 →
        burstOk sA.now bs2 = true →
        editsOf trB = bs2.map EditSpec.toEv →
        allOkEv trB = true →
        run sA trB = some s' →
        quietPend s' = true →
        issuedTimes s' = [lastT bs2 + 2000, lastT bs1 + 2000]) := by
  constructor
  · intro cid ti co bs tr s' hburst hne hok hrun hq
    have h := burst_run tr bs (editorInit cid ti co) s' rfl hburst hne hok hrun hq
    simpa [issuedTimes, editorInit] using h
  · intro cid ti co bs1 bs2 trA trB sA s' hb1 hneA hokA hrunA hqA _hsep hb2
      hneB hokB hrunB hq
    have hA := burst_run trA bs1 (editorInit cid ti co) sA rfl hb1 hneA hokA
      hrunA hqA
    have hA' : issuedTimes sA = [lastT bs1 + 2000] := by
      simpa [issuedTimes, editorInit] using hA
    have hB := burst_run trB bs2 sA s' hqA hb2 hneB hokB hrunB hq
    rw [hB, hA']

/-- The rest state after the first witness burst. -/
def c2wSA : EdState :=
  { now := 2006, status := SaveStatus.saved, timer := none, retryAt := [],
    chapterId := some 3, title := "a", content := "b", inflight := [],
    issued := [{ issuedAt := 2005, target := some 3, newId := 0,
                 pTitle := "a", pContent := "b" }],
    createdIds := [], serverTitle := "a", serverContent := "b",
    reload := false, nextId := 1 }

/-- The rest state after the second witness burst. -/
def c2wSB : EdState :=
  { now := 6200, status := SaveStatus.saved, timer := none, retryAt := [],
    chapterId := some 3, title := "c", content := "d", inflight := [],
    issued := [{ issuedAt := 6100, target := some 3, newId := 1,
                 pTitle := "c", pContent := "d" },
               { issuedAt := 2005, target := some 3, newId := 0,
                 pTitle := "a", pContent := "b" }],
    createdIds := [], serverTitle := "c", serverContent := "d",
    reload := false, nextId := 2 }

/-- Witness for the amended C2: a one-edit burst at t=5 saved at 2005, then a
second burst at t=4100 (after the first save resolved) saved at 6100. -/
theorem editor_trailing_debounce_amended_witness :
    issuedTimes c2wSA = [lastT [⟨5, "a", "b"⟩] + 2000] ∧
      issuedTimes c2wSB =
        [lastT [⟨4100, "c", "d"⟩] + 2000, lastT [⟨5, "a", "b"⟩] + 2000] :=
  ⟨editor_trailing_debounce_amended.1 (some 3) "t" "c" [⟨5, "a", "b"⟩]
      [Ev.edit 5 "a" "b", Ev.fire 2005, Ev.resolveOk 2006 0] c2wSA
      (by decide) (by decide) (by decide) (by decide) (by decide),
    editor_trailing_debounce_amended.2 (some 3) "t" "c" [⟨5, "a", "b"⟩]
      [⟨4100, "c", "d"⟩]
      [Ev.edit 5 "a" "b", Ev.fire 2005, Ev.resolveOk 2006 0]
      [Ev.edit 4100 "c" "d", Ev.fire 6100, Ev.resolveOk 6200 0] c2wSA c2wSB
      (by decide) (by decide) (by decide) (by decide) (by decide) (by decide)
      (by decide) (by decide) (by decide) (by decide) (by decide)⟩
